import Mathlib

/-!
Shallow embedding of the command resolution engine of the f-ts command-line
dispatcher (source file src/main.ts): exact-name lookup (findCommand), the
fuzzy subsequence scorer (fuzzyScore), ranked disambiguation (rankCommands,
suggestClosestCommand), the interactive selection loop (promptForCommand,
modelled as a tagged state machine fed a scripted sequence of input lines),
and the top-level dispatcher routing with its catch-all error handler.

Strings are modelled as lists of Unicode code points (List Nat).  JavaScript
toLowerCase is modelled per code point on the ASCII range; the whitespace
class is the JavaScript regular-expression class \s.  The stable Array.sort
of JavaScript is modelled by the stable insertion sort of Mathlib run with
the same comparator; localeCompare on names is modelled as case-insensitive
lexicographic comparison of code points, matching the tie-break the program
relies on.  Command run behaviours are opaque external collaborators and are
passed to the dispatcher as a function returning an Except value.
-/

/-- Strings as lists of Unicode code points. -/
abbrev Str := List Nat

/-- Convert a list of characters to code points, for readable literals. -/
def str (cs : List Char) : Str := cs.map Char.toNat

/-- Model of JavaScript toLowerCase, per code point (ASCII case folding). -/
def jsToLower (n : Nat) : Nat := if 65 ≤ n ∧ n ≤ 90 then n + 32 else n

/-- Model of the JavaScript whitespace class \s (used by split, replace and
trim in the source). -/
def jsIsSpace (n : Nat) : Bool :=
  n = 9 || n = 10 || n = 11 || n = 12 || n = 13 || n = 32 || n = 160 ||
  n = 5760 || (8192 ≤ n && n ≤ 8202) || n = 8232 || n = 8233 || n = 8239 ||
  n = 8287 || n = 12288 || n = 65279

/-- Model of String.prototype.trim: drop the whitespace of both ends. -/
def jsTrim (s : Str) : Str :=
  ((s.dropWhile jsIsSpace).reverse.dropWhile jsIsSpace).reverse

/-- CommandDefinition of src/main.ts; the run behaviour is an opaque external
collaborator and is not part of the record (the dispatcher model receives it
separately). -/
structure CommandDefinition where
  name : Str
  description : Str
  usage : Option Str
  aliases : Option (List Str)
  deriving DecidableEq, Repr

/-- The single registered command of the program (the commands array of
src/main.ts): init, with its description, usage init and no aliases. -/
def initCommand : CommandDefinition where
  name := str ['i','n','i','t']
  description := str ['C','r','e','a','t','e',' ','T','a','s','k','f','i','l','e',
    '.','y','m','l',' ','w','i','t','h',' ','d','e','v',' ','t','a','s','k',' ',
    'r','u','n','n','i','n','g',' ','b','u','n',' ','d','e','v']
  usage := some (str ['i','n','i','t'])
  aliases := none

/-- The commands registry of src/main.ts, in registration order. -/
def commands : List CommandDefinition := [initCommand]

/-- Predicate of findCommand: the command name equals the lowercased input,
or, when aliases are present, some alias equals it (verbatim comparison of
the stored strings against the lowercased input, as in the source). -/
def matchesNormalized (normalized : Str) (command : CommandDefinition) : Bool :=
  if command.name = normalized then true
  else
    match command.aliases with
    | none => false
    | some as => as.any fun al => decide (al = normalized)

/-- findCommand of src/main.ts: lowercase the input, then return the first
registry entry whose name or alias equals it. -/
def findCommand (input : Str) (cmds : List CommandDefinition) :
    Option CommandDefinition :=
  let normalized := input.map jsToLower
  cmds.find? (matchesNormalized normalized)

/-- buildSearchText of src/main.ts: the lowercase of
"name SPACE aliases-joined-by-spaces SPACE description". -/
def buildSearchText (command : CommandDefinition) : Str :=
  let aliasText : Str :=
    match command.aliases with
    | none => []
    | some as => List.intercalate [32] as
  (command.name ++ [32] ++ aliasText ++ [32] ++ command.description).map jsToLower

/-- The NO_MATCH sentinel of the Matcher: the source returns -1. -/
def NO_MATCH : Int := -1

/-- First index of code point c in l, or none; helper for indexOf. -/
def findFirst (c : Nat) : Str → Option Nat
  | [] => none
  | x :: xs => if x = c then some 0 else (findFirst c xs).map (· + 1)

/-- Model of String.prototype.indexOf(c, i): first index at or after i
holding c, none when there is none. -/
def indexOfFrom (candidate : Str) (c : Nat) (i : Nat) : Option Nat :=
  (findFirst c (candidate.drop i)).map (i + ·)

/-- The for-loop of fuzzyScore: walk the normalized query, looking each
character up at or after the cursor; award 2 on a match exactly at the
cursor, 1 otherwise; fail with NO_MATCH when a character is absent. -/
def fuzzyLoop (candidate : Str) : Str → Nat → Int → Int
  | [], _, score => score
  | ch :: rest, candidateIndex, score =>
    let target := jsToLower ch
    match indexOfFrom candidate target candidateIndex with
    | none => NO_MATCH
    | some matchIndex =>
      fuzzyLoop candidate rest (matchIndex + 1)
        (score + if matchIndex = candidateIndex then 2 else 1)

/-- fuzzyScore of src/main.ts: lowercase the query and strip all whitespace;
empty result is NO_MATCH; otherwise run the cursor loop from position 0. -/
def fuzzyScore (query candidate : Str) : Int :=
  let normalizedQuery := (query.map jsToLower).filter fun c => !jsIsSpace c
  if normalizedQuery = [] then NO_MATCH
  else fuzzyLoop candidate normalizedQuery 0 0

/-- The whitespace-stripped lowercased query that fuzzyScore matches. -/
def normalizeQuery (query : Str) : Str :=
  (query.map jsToLower).filter fun c => !jsIsSpace c

/-- The token list of rankCommands: lowercase the query, split it on
whitespace, and keep the non-empty tokens. -/
def tokenize (query : Str) : List Str :=
  ((query.map jsToLower).splitOnP jsIsSpace).filter fun t => !t.isEmpty

/-- ScoredCandidate: a registry entry paired with its summed score. -/
structure ScoredCandidate where
  command : CommandDefinition
  score : Int
  deriving DecidableEq, Repr

/-- The token loop of rankCommands: sum the per-token fuzzy scores against
one search text, collapsing to NO_MATCH as soon as a token fails. -/
def sumTokenScores (searchText : Str) : List Str → Int → Int
  | [], score => score
  | token :: rest, score =>
    let tokenScore := fuzzyScore token searchText
    if tokenScore < 0 then NO_MATCH
    else sumTokenScores searchText rest (score + tokenScore)

/-- Strict case-insensitive lexicographic order on code point lists; the
model of a negative localeCompare result between lowercase names. -/
def lexLt : Str → Str → Bool
  | [], [] => false
  | [], _ :: _ => true
  | _ :: _, [] => false
  | a :: as, b :: bs => if a < b then true else if b < a then false else lexLt as bs

/-- Non-strict case-insensitive lexicographic order (localeCompare at most
zero). -/
def lexLe (x y : Str) : Bool := lexLt x y || decide (x = y)

/-- The sort comparator of rankCommands, as the relation "a stays at or
before b": higher summed score first, ties by ascending case-insensitive
name (the localeCompare tie-break). -/
def candLe (a b : ScoredCandidate) : Bool :=
  if a.score = b.score then
    lexLe (a.command.name.map jsToLower) (b.command.name.map jsToLower)
  else decide (b.score < a.score)

/-- rankCommands of src/main.ts: tokenize the query; empty token list gives
the empty ranking; otherwise score every definition against its search text,
drop the failures, and stable-sort by the comparator. -/
def rankCommands (query : Str) (definitions : List CommandDefinition) :
    List ScoredCandidate :=
  let tokens := tokenize query
  if tokens = [] then []
  else
    (((definitions.map fun command =>
        ScoredCandidate.mk command
          (sumTokenScores (buildSearchText command) tokens 0)).filter
      fun entry => decide (0 ≤ entry.score)).insertionSort
        fun a b => candLe a b = true)

/-- suggestClosestCommand of src/main.ts: the top entry of the ranking over
the registry, when any. -/
def suggestClosestCommand (input : Str) : Option CommandDefinition :=
  (rankCommands input commands).head?.map (·.command)

/-- Digit run of Number.parseInt with radix 10: accumulate leading decimal
digits, stop at the first non-digit, none when no digit was seen. -/
def parseDigits : Str → Option Nat → Option Nat
  | [], acc => acc
  | c :: rest, acc =>
    if 48 ≤ c ∧ c ≤ 57 then
      parseDigits rest (some (acc.getD 0 * 10 + (c - 48)))
    else acc

/-- Model of Number.parseInt(s, 10): skip leading whitespace, read one
optional sign and then leading digits, ignore everything after them; none
models NaN. -/
def parseIntDec (s : Str) : Option Int :=
  let s1 := s.dropWhile jsIsSpace
  match s1 with
  | 45 :: rest => (parseDigits rest none).map fun v => -(v : Int)
  | 43 :: rest => (parseDigits rest none).map fun v => (v : Int)
  | _ => (parseDigits s1 none).map fun v => (v : Int)

/-- States of the interactive selection loop of promptForCommand: awaiting a
query line, awaiting a selection over a presented candidate list, or the two
terminal outcomes. -/
inductive PromptState where
  | awaitingQuery : PromptState
  | awaitingSelection : List ScoredCandidate → PromptState
  | done : CommandDefinition → PromptState
  | cancelled : PromptState
  deriving DecidableEq, Repr

/-- Observable console output of one turn of the loop (each constructor
stands for one print block of the source). -/
inductive PromptEvent where
  | listAll : PromptEvent
  | noMatchMsg : PromptEvent
  | showMatches : List ScoredCandidate → PromptEvent
  | invalidMsg : PromptEvent
  deriving DecidableEq, Repr

/-- One turn of the promptForCommand loop: consume one input line in the
given state, produce the next state and the feedback printed during the
turn.  Terminal states absorb further input.  On a non-empty selection input
that does not parse to an in-range integer, the source prints the
invalid-selection message and falls back to the top of the while loop, so
the next line is read at the search prompt: the machine returns to the
awaitingQuery state. -/
def step (defs : List CommandDefinition) :
    PromptState → Str → PromptState × List PromptEvent
  | .awaitingQuery, line =>
    let term := jsTrim line
    if term = [] then (.cancelled, [])
    else
      let ranked := rankCommands term defs
      if ranked = [] then (.awaitingQuery, [.noMatchMsg])
      else if ranked.length = 1 then
        match ranked with
        | entry :: _ => (.done entry.command, [])
        | [] => (.cancelled, [])
      else
        let suggestions := ranked.take (min 5 ranked.length)
        (.awaitingSelection suggestions, [.showMatches suggestions])
  | .awaitingSelection suggestions, line =>
    let sel := jsTrim line
    if sel = [] then (.awaitingQuery, [])
    else
      match parseIntDec sel with
      | some selection =>
        if 1 ≤ selection ∧ selection ≤ (suggestions.length : Int) then
          match suggestions[(selection - 1).toNat]? with
          | some entry => (.done entry.command, [])
          | none => (.cancelled, [])
        else (.awaitingQuery, [.invalidMsg])
      | none => (.awaitingQuery, [.invalidMsg])
  | .done c, _ => (.done c, [])
  | .cancelled, _ => (.cancelled, [])

/-- Run of the promptForCommand loop over a scripted list of input lines,
returning the selected command (none models returning undefined), the
console feedback, and how many lines were consumed.  Exhaustion of the input
(stream closure while awaiting a line) cancels, as an empty input would. -/
def runPromptLoop (defs : List CommandDefinition) :
    PromptState → List Str → Option CommandDefinition × List PromptEvent × Nat
  | .done c, _ => (some c, [], 0)
  | .cancelled, _ => (none, [], 0)
  | .awaitingQuery, [] => (none, [], 0)
  | .awaitingSelection _, [] => (none, [], 0)
  | .awaitingQuery, line :: rest =>
    let out := step defs .awaitingQuery line
    let r := runPromptLoop defs out.1 rest
    (r.1, out.2 ++ r.2.1, r.2.2 + 1)
  | .awaitingSelection suggestions, line :: rest =>
    let out := step defs (.awaitingSelection suggestions) line
    let r := runPromptLoop defs out.1 rest
    (r.1, out.2 ++ r.2.1, r.2.2 + 1)

/-- promptForCommand of src/main.ts: an empty registry returns undefined at
once; otherwise the registry listing is printed (the listAll event) and the
loop starts in the awaitingQuery state. -/
def promptForCommand (defs : List CommandDefinition) (inputs : List Str) :
    Option CommandDefinition × List PromptEvent × Nat :=
  if defs = [] then (none, [], 0)
  else
    let r := runPromptLoop defs .awaitingQuery inputs
    (r.1, .listAll :: r.2.1, r.2.2)

/-- Outcome of the dispatcher: the process exit code and the lines printed
to the error stream. -/
structure MainResult where
  exitCode : Nat
  errOut : List Str
  deriving DecidableEq, Repr

/-- The Unknown command error line. -/
def unknownMsg (target : Str) : Str :=
  str ['U','n','k','n','o','w','n',' ','c','o','m','m','a','n','d',':',' '] ++ target

/-- The Did you mean suggestion line. -/
def didYouMean (name : Str) : Str :=
  str ['D','i','d',' ','y','o','u',' ','m','e','a','n',' ','"'] ++ name ++
    str ['"','?']

/-- Error output of the unknown-command path: the Unknown command line, then
the suggestion line when the fuzzy suggestion found a candidate. -/
def unknownLines (target : Str) (sug : Option CommandDefinition) : List Str :=
  match sug with
  | none => [unknownMsg target]
  | some c => [unknownMsg target, didYouMean c.name]

/-- Flag literals of the dispatcher. -/
def versionFlagLong : Str := str ['-','-','v','e','r','s','i','o','n']

/-- Short version flag. -/
def versionFlagShort : Str := str ['-','v']

/-- Long help flag. -/
def helpFlagLong : Str := str ['-','-','h','e','l','p']

/-- Short help flag. -/
def helpFlagShort : Str := str ['-','h']

/-- The help command word. -/
def helpWord : Str := str ['h','e','l','p']

/-- Model of the main function of src/main.ts: route on the raw arguments,
resolve a command, and invoke the given run behaviour; every failure the run
behaviour reports is caught at this single boundary, its message becomes one
error line and the exit code becomes 1.  Totality of this definition is the
model of "the process never crashes with an unhandled fault".  Help and
version printing go to standard output and are not tracked here; errOut only
holds error-stream lines. -/
def mainRun (argv : List Str) (ttyIn ttyOut : Bool) (inputs : List Str)
    (runBehavior : CommandDefinition → List Str → Except Str Unit) :
    MainResult :=
  match argv with
  | [] =>
    if !ttyIn || !ttyOut then ⟨0, []⟩
    else
      match (promptForCommand commands inputs).1 with
      | none => ⟨0, []⟩
      | some selection =>
        match runBehavior selection [] with
        | .ok _ => ⟨0, []⟩
        | .error msg => ⟨1, [msg]⟩
  | arg0 :: restArgs =>
    if restArgs = [] ∧ (arg0 = versionFlagLong ∨ arg0 = versionFlagShort) then
      ⟨0, []⟩
    else if restArgs = [] ∧ (arg0 = helpFlagLong ∨ arg0 = helpFlagShort) then
      ⟨0, []⟩
    else if arg0 = helpWord then
      match restArgs with
      | [] => ⟨0, []⟩
      | target :: _ =>
        match findCommand target commands with
        | none => ⟨1, unknownLines target (suggestClosestCommand target)⟩
        | some _ => ⟨0, []⟩
    else
      match findCommand arg0 commands with
      | none => ⟨1, unknownLines arg0 (suggestClosestCommand arg0)⟩
      | some command =>
        if restArgs.any fun v => decide (v = helpFlagLong) || decide (v = helpFlagShort) then
          ⟨0, []⟩
        else
          match runBehavior command restArgs with
          | .ok _ => ⟨0, []⟩
          | .error msg => ⟨1, [msg]⟩

/-! ### Lemmas about the Matcher -/

/-- List-level recursion equivalent to fuzzyLoop, acting on the candidate
suffix after the cursor; used to reason about the greedy walk. -/
def greedyScore : Str → Str → Int → Int
  | [], _, acc => acc
  | ch :: rest, cand, acc =>
    match findFirst (jsToLower ch) cand with
    | none => NO_MATCH
    | some k => greedyScore rest (cand.drop (k + 1)) (acc + if k = 0 then 2 else 1)

theorem findFirst_eq_none_iff (c : Nat) : ∀ l : Str, findFirst c l = none ↔ c ∉ l := by
  intro l
  induction l with
  | nil => simp [findFirst]
  | cons x xs ih =>
    by_cases hx : x = c
    · subst hx
      simp [findFirst]
    · simp [findFirst, hx, ih, Ne.symm hx]

theorem findFirst_eq_some (c : Nat) :
    ∀ (l : Str) (k : Nat), findFirst c l = some k →
      ∃ pre post, l = pre ++ c :: post ∧ c ∉ pre ∧ pre.length = k := by
  intro l
  induction l with
  | nil => intro k h; simp [findFirst] at h
  | cons x xs ih =>
    intro k h
    by_cases hx : x = c
    · subst hx
      simp [findFirst] at h
      exact ⟨[], xs, rfl, by simp, by simp [h]⟩
    · simp [findFirst, hx] at h
      obtain ⟨k', hk', rfl⟩ := h
      obtain ⟨pre, post, rfl, hmem, hlen⟩ := ih k' hk'
      exact ⟨x :: pre, post, rfl, by simp [Ne.symm hx, hmem], by simp [hlen]⟩

theorem drop_after_first (pre post : Str) (c : Nat) :
    (pre ++ c :: post).drop (pre.length + 1) = post := by
  have h1 : pre ++ c :: post = (pre ++ [c]) ++ post := by simp
  have h2 : pre.length + 1 = (pre ++ [c]).length := by simp
  rw [h1, h2, List.drop_left]

theorem sublist_of_cons_sublist_middle (c : Nat) :
    ∀ (pre xs post : Str), c ∉ pre →
      (c :: xs).Sublist (pre ++ c :: post) → xs.Sublist post := by
  intro pre
  induction pre with
  | nil =>
    intro xs post _ h
    cases h with
    | cons _ h' => exact (List.sublist_cons_self c xs).trans h'
    | cons₂ _ h' => exact h'
  | cons p pre' ih =>
    intro xs post hmem h
    cases h with
    | cons _ h' => exact ih xs post (fun hc => hmem (List.mem_cons_of_mem p hc)) h'
    | cons₂ _ h' => exact absurd (List.mem_cons_self _ _) hmem

theorem cons_sublist_middle_of_sublist (c : Nat) (pre xs post : Str)
    (h : xs.Sublist post) : (c :: xs).Sublist (pre ++ c :: post) :=
  (List.cons_sublist_cons.mpr h).trans (List.sublist_append_right pre (c :: post))

theorem fuzzyLoop_eq_greedyScore (candidate : Str) :
    ∀ (nq : Str) (i : Nat) (acc : Int),
      fuzzyLoop candidate nq i acc = greedyScore nq (candidate.drop i) acc := by
  intro nq
  induction nq with
  | nil => intro i acc; rfl
  | cons ch rest ih =>
    intro i acc
    simp only [fuzzyLoop, greedyScore, indexOfFrom]
    cases h : findFirst (jsToLower ch) (candidate.drop i) with
    | none => simp [h]
    | some k =>
      simp only [h, Option.map_some']
      rw [ih]
      rw [List.drop_drop]
      have harith : i + (k + 1) = i + k + 1 := by omega
      have hiff : (i + k = i) ↔ (k = 0) := by omega
      rw [harith]
      simp only [hiff]

theorem greedyScore_eq_noMatch_iff :
    ∀ (nq cand : Str) (acc : Int), 0 ≤ acc →
      (greedyScore nq cand acc = NO_MATCH ↔ ¬ (nq.map jsToLower).Sublist cand) := by
  intro nq
  induction nq with
  | nil =>
    intro cand acc hacc
    simp only [greedyScore, List.map_nil, List.nil_sublist, not_true, iff_false, NO_MATCH]
    omega
  | cons ch rest ih =>
    intro cand acc hacc
    simp only [greedyScore, List.map_cons]
    cases h : findFirst (jsToLower ch) cand with
    | none =>
      have hnm : jsToLower ch ∉ cand := (findFirst_eq_none_iff _ _).mp h
      simp only [h, true_iff]
      intro hs
      exact hnm (hs.subset (List.mem_cons_self _ _))
    | some k =>
      obtain ⟨pre, post, hcand, hpre, hlen⟩ := findFirst_eq_some _ _ _ h
      have hdrop : cand.drop (k + 1) = post := by
        rw [hcand, ← hlen]; exact drop_after_first pre post _
      have hacc' : 0 ≤ acc + if k = 0 then 2 else 1 := by split <;> omega
      simp only [h, hdrop]
      rw [ih post _ hacc']
      constructor
      · intro hnot hs
        exact hnot (sublist_of_cons_sublist_middle _ pre _ post hpre (hcand ▸ hs))
      · intro hnot hs
        exact hnot (hcand ▸ cons_sublist_middle_of_sublist _ pre _ post hs)

theorem greedyScore_bounds :
    ∀ (nq cand : Str) (acc : Int),
      greedyScore nq cand acc = NO_MATCH ∨
        (acc + nq.length ≤ greedyScore nq cand acc ∧
          greedyScore nq cand acc ≤ acc + 2 * nq.length) := by
  intro nq
  induction nq with
  | nil =>
    intro cand acc
    right
    simp [greedyScore]
  | cons ch rest ih =>
    intro cand acc
    simp only [greedyScore]
    cases h : findFirst (jsToLower ch) cand with
    | none => left; rfl
    | some k =>
      rcases ih (cand.drop (k + 1)) (acc + if k = 0 then 2 else 1) with h1 | ⟨h1, h2⟩
      · left; exact h1
      · right
        constructor
        · refine le_trans ?_ h1
          simp only [List.length_cons]
          push_cast
          split <;> omega
        · refine le_trans h2 ?_
          simp only [List.length_cons]
          push_cast
          split <;> omega

theorem greedyScore_self_append :
    ∀ (nq r : Str) (acc : Int), (∀ c ∈ nq, jsToLower c = c) →
      greedyScore nq (nq ++ r) acc = acc + 2 * nq.length := by
  intro nq
  induction nq with
  | nil => intro r acc _; simp [greedyScore]
  | cons ch rest ih =>
    intro r acc hlow
    have hch : jsToLower ch = ch := hlow ch (List.mem_cons_self _ _)
    have hrest : ∀ c ∈ rest, jsToLower c = c :=
      fun c hc => hlow c (List.mem_cons_of_mem _ hc)
    have hff : findFirst (jsToLower ch) ((ch :: rest) ++ r) = some 0 := by
      rw [List.cons_append]
      simp [findFirst, hch]
    have hdrop : ((ch :: rest) ++ r).drop (0 + 1) = rest ++ r := by simp
    simp only [greedyScore, hff, hdrop]
    norm_num
    rw [ih r (acc + 2) hrest]
    ring

theorem fuzzyScore_def (query candidate : Str) :
    fuzzyScore query candidate =
      if normalizeQuery query = [] then NO_MATCH
      else fuzzyLoop candidate (normalizeQuery query) 0 0 := rfl

theorem jsToLower_idem (n : Nat) : jsToLower (jsToLower n) = jsToLower n := by
  unfold jsToLower
  split_ifs <;> omega

theorem map_jsToLower_id_of_mem :
    ∀ l : Str, (∀ x ∈ l, jsToLower x = x) → l.map jsToLower = l := by
  intro l
  induction l with
  | nil => intro _; rfl
  | cons x xs ih =>
    intro h
    simp only [List.map_cons, h x (List.mem_cons_self _ _),
      ih fun y hy => h y (List.mem_cons_of_mem _ hy)]

theorem normalizeQuery_lower_fixed (query : Str) :
    ∀ x ∈ normalizeQuery query, jsToLower x = x := by
  intro x hx
  have hx' : x ∈ query.map jsToLower := (List.mem_filter.mp hx).1
  obtain ⟨y, _, rfl⟩ := List.mem_map.mp hx'
  exact jsToLower_idem y

theorem normalizeQuery_map_lower (query : Str) :
    (normalizeQuery query).map jsToLower = normalizeQuery query :=
  map_jsToLower_id_of_mem _ (normalizeQuery_lower_fixed query)

theorem fuzzyScore_eq_or_bounds (query candidate : Str) :
    fuzzyScore query candidate = NO_MATCH ∨
      (((normalizeQuery query).length : Int) ≤ fuzzyScore query candidate ∧
        fuzzyScore query candidate ≤ 2 * ((normalizeQuery query).length : Int)) := by
  rw [fuzzyScore_def]
  by_cases hq : normalizeQuery query = []
  · left; simp [hq]
  · rw [if_neg hq, fuzzyLoop_eq_greedyScore candidate _ 0 0, List.drop_zero]
    rcases greedyScore_bounds (normalizeQuery query) candidate 0 with h | ⟨h1, h2⟩
    · left; exact h
    · right; constructor <;> omega

theorem fuzzyScore_nonneg_iff (query candidate : Str) :
    0 ≤ fuzzyScore query candidate ↔ fuzzyScore query candidate ≠ NO_MATCH := by
  rcases fuzzyScore_eq_or_bounds query candidate with h | ⟨h1, h2⟩
  · rw [h]; simp [NO_MATCH]
  · constructor
    · intro _ hne
      rw [hne] at h1
      simp only [NO_MATCH] at h1
      omega
    · intro _
      have : (0 : Int) ≤ ((normalizeQuery query).length : Int) := by positivity
      omega

/-- Claim C3: fuzzyScore returns NO_MATCH exactly when the lowercased
whitespace-stripped query is empty or its characters do not occur, in order,
as a subsequence of the candidate text; in every other case the result is an
integer score (the function is total into Int by construction). -/
theorem claim_C3_fuzzyScore_noMatch_iff (query candidate : Str) :
    fuzzyScore query candidate = NO_MATCH ↔
      (normalizeQuery query = [] ∨ ¬ (normalizeQuery query).Sublist candidate) := by
  rw [fuzzyScore_def]
  by_cases hq : normalizeQuery query = []
  · simp [hq]
  · rw [if_neg hq, fuzzyLoop_eq_greedyScore candidate _ 0 0, List.drop_zero]
    rw [greedyScore_eq_noMatch_iff (normalizeQuery query) candidate 0 le_rfl]
    rw [normalizeQuery_map_lower]
    simp [hq]

/-- Witness for claim C3 at concrete inputs: the query "tsk" matches the
candidate "task" as a subsequence, and the query "xyz" does not. -/
theorem claim_C3_witness :
    (fuzzyScore (str ['t','s','k']) (str ['t','a','s','k']) = NO_MATCH ↔
      (normalizeQuery (str ['t','s','k']) = [] ∨
        ¬ (normalizeQuery (str ['t','s','k'])).Sublist (str ['t','a','s','k']))) ∧
    (fuzzyScore (str ['x','y','z']) (str ['t','a','s','k']) = NO_MATCH ↔
      (normalizeQuery (str ['x','y','z']) = [] ∨
        ¬ (normalizeQuery (str ['x','y','z'])).Sublist (str ['t','a','s','k']))) :=
  ⟨claim_C3_fuzzyScore_noMatch_iff _ _, claim_C3_fuzzyScore_noMatch_iff _ _⟩

/-- Counterexample for claim C4 as stated: the string "a a" is lowercase
(it is fixed by toLowerCase), yet fuzzyScore of the string against itself is
3, not 2 times its length 3 = 6, because the Matcher strips the whitespace
out of the query but not out of the candidate. -/
theorem claim_C4_counterexample :
    (str ['a',' ','a']).map jsToLower = str ['a',' ','a'] ∧
    fuzzyScore (str ['a',' ','a']) (str ['a',' ','a']) ≠
      2 * ((str ['a',' ','a']).length : Int) := by
  constructor
  · decide
  · decide

/-- Claim C4, amended: for every nonempty lowercase string with no
whitespace characters, the score of the string against itself is the maximum
2 times its length (every character is found exactly at the cursor and earns
the contiguity bonus).  The whitespace-free and nonempty side conditions are
forced: whitespace is stripped from the query only (see the counterexample),
and the all-whitespace or empty query normalizes to empty, which is NO_MATCH
by the normalization rule of the Matcher. -/
theorem claim_C4_self_score (s : Str) (hne : s ≠ [])
    (hlow : ∀ c ∈ s, jsToLower c = c) (hws : ∀ c ∈ s, jsIsSpace c = false) :
    fuzzyScore s s = 2 * (s.length : Int) := by
  have hnorm : normalizeQuery s = s := by
    unfold normalizeQuery
    rw [map_jsToLower_id_of_mem s hlow]
    exact List.filter_eq_self.mpr fun a ha => by simp [hws a ha]
  rw [fuzzyScore_def, hnorm, if_neg hne,
    fuzzyLoop_eq_greedyScore s s 0 0, List.drop_zero]
  calc greedyScore s s 0
      = greedyScore s (s ++ []) 0 := by rw [List.append_nil]
    _ = 0 + 2 * (s.length : Int) := greedyScore_self_append s [] 0 hlow
    _ = 2 * (s.length : Int) := by ring

/-- Witness for the amended claim C4 at the concrete lowercase string
"init": its self score is 8. -/
theorem claim_C4_witness :
    fuzzyScore (str ['i','n','i','t']) (str ['i','n','i','t']) =
      2 * ((str ['i','n','i','t']).length : Int) :=
  claim_C4_self_score (str ['i','n','i','t']) (by decide) (by decide) (by decide)

/-- Claim C5: whenever fuzzyScore succeeds, the score lies between L and 2L,
where L is the length of the whitespace-stripped lowercased query, and when
the candidate starts with that normalized query (a fully contiguous match
from the start), the score is exactly 2L. -/
theorem claim_C5_score_bounds (query candidate : Str)
    (h : fuzzyScore query candidate ≠ NO_MATCH) :
    ((normalizeQuery query).length : Int) ≤ fuzzyScore query candidate ∧
    fuzzyScore query candidate ≤ 2 * ((normalizeQuery query).length : Int) ∧
    ∀ r, candidate = normalizeQuery query ++ r →
      fuzzyScore query candidate = 2 * ((normalizeQuery query).length : Int) := by
  rcases fuzzyScore_eq_or_bounds query candidate with hbad | ⟨h1, h2⟩
  · exact absurd hbad h
  · refine ⟨h1, h2, ?_⟩
    intro r hr
    have hne : normalizeQuery query ≠ [] := by
      intro hq
      exact h (by rw [fuzzyScore_def, if_pos hq])
    rw [fuzzyScore_def, if_neg hne,
      fuzzyLoop_eq_greedyScore candidate _ 0 0, List.drop_zero, hr]
    rw [greedyScore_self_append _ r 0 (normalizeQuery_lower_fixed query)]
    ring

/-- Witness for claim C5 at concrete inputs: query "ab" against candidate
"abc" succeeds, scores 4, and "abc" indeed extends the normalized query. -/
theorem claim_C5_witness :
    ((normalizeQuery (str ['a','b'])).length : Int) ≤
        fuzzyScore (str ['a','b']) (str ['a','b','c']) ∧
    fuzzyScore (str ['a','b']) (str ['a','b','c']) ≤
        2 * ((normalizeQuery (str ['a','b'])).length : Int) ∧
    ∀ r, str ['a','b','c'] = normalizeQuery (str ['a','b']) ++ r →
      fuzzyScore (str ['a','b']) (str ['a','b','c']) =
        2 * ((normalizeQuery (str ['a','b'])).length : Int) :=
  claim_C5_score_bounds (str ['a','b']) (str ['a','b','c']) (by decide)

/-! ### Lemmas about the Resolver -/

theorem sumTokenScores_eq_sum (searchText : Str) :
    ∀ (tokens : List Str) (acc : Int),
      (∀ t ∈ tokens, 0 ≤ fuzzyScore t searchText) →
      sumTokenScores searchText tokens acc =
        acc + (tokens.map fun t => fuzzyScore t searchText).sum := by
  intro tokens
  induction tokens with
  | nil => intro acc _; simp [sumTokenScores]
  | cons t rest ih =>
    intro acc h
    have ht : 0 ≤ fuzzyScore t searchText := h t (List.mem_cons_self _ _)
    have hrest : ∀ u ∈ rest, 0 ≤ fuzzyScore u searchText :=
      fun u hu => h u (List.mem_cons_of_mem _ hu)
    simp only [sumTokenScores, if_neg (by omega : ¬ fuzzyScore t searchText < 0)]
    rw [ih _ hrest]
    simp only [List.map_cons, List.sum_cons]
    ring

theorem sumTokenScores_nonneg_iff (searchText : Str) :
    ∀ (tokens : List Str) (acc : Int), 0 ≤ acc →
      (0 ≤ sumTokenScores searchText tokens acc ↔
        ∀ t ∈ tokens, 0 ≤ fuzzyScore t searchText) := by
  intro tokens
  induction tokens with
  | nil => intro acc hacc; simpa [sumTokenScores] using hacc
  | cons t rest ih =>
    intro acc hacc
    by_cases ht : fuzzyScore t searchText < 0
    · simp only [sumTokenScores, if_pos ht, NO_MATCH]
      constructor
      · intro hcontra; omega
      · intro hall
        exact absurd (hall t (List.mem_cons_self _ _)) (by omega)
    · simp only [sumTokenScores, if_neg ht]
      rw [ih (acc + fuzzyScore t searchText) (by omega)]
      constructor
      · intro hall u hu
        rcases List.mem_cons.mp hu with rfl | hu'
        · omega
        · exact hall u hu'
      · intro hall u hu
        exact hall u (List.mem_cons_of_mem _ hu)

/-- Claim C1: the ranking contains an entry for a descriptor exactly when
the query has at least one non-whitespace token and every token of the query
matches the search text of the descriptor, and that entry's score is then
the sum of the per-token Matcher scores; a query with no tokens produces the
empty ranking. -/
theorem claim_C1_rank_membership (query : Str) (ds : List CommandDefinition)
    (d : CommandDefinition) (s : Int) :
    (tokenize query = [] → rankCommands query ds = []) ∧
    (ScoredCandidate.mk d s ∈ rankCommands query ds ↔
      tokenize query ≠ [] ∧ d ∈ ds ∧
      (∀ t ∈ tokenize query, fuzzyScore t (buildSearchText d) ≠ NO_MATCH) ∧
      s = ((tokenize query).map fun t => fuzzyScore t (buildSearchText d)).sum) := by
  constructor
  · intro h
    simp [rankCommands, h]
  · by_cases htok : tokenize query = []
    · simp [rankCommands, htok]
    · simp only [rankCommands, if_neg htok]
      rw [List.Perm.mem_iff (List.perm_insertionSort _ _)]
      simp only [List.mem_filter, List.mem_map]
      constructor
      · rintro ⟨⟨d', hd', heq⟩, hpos⟩
        obtain ⟨rfl, hs⟩ : d' = d ∧ sumTokenScores (buildSearchText d') (tokenize query) 0 = s := by
          cases heq
          exact ⟨rfl, rfl⟩
        have hpos' : 0 ≤ s := of_decide_eq_true hpos
        rw [← hs] at hpos'
        have hall : ∀ t ∈ tokenize query, 0 ≤ fuzzyScore t (buildSearchText d') :=
          (sumTokenScores_nonneg_iff _ _ 0 le_rfl).mp hpos'
        refine ⟨htok, hd', ?_, ?_⟩
        · exact fun t ht => (fuzzyScore_nonneg_iff _ _).mp (hall t ht)
        · rw [← hs, sumTokenScores_eq_sum _ _ 0 hall, zero_add]
      · rintro ⟨-, hd, hall, rfl⟩
        have hall' : ∀ t ∈ tokenize query, 0 ≤ fuzzyScore t (buildSearchText d) :=
          fun t ht => (fuzzyScore_nonneg_iff _ _).mpr (hall t ht)
        refine ⟨⟨d, hd, ?_⟩, ?_⟩
        · rw [sumTokenScores_eq_sum _ _ 0 hall', zero_add]
        · refine decide_eq_true ?_
          refine List.sum_nonneg ?_
          intro x hx
          obtain ⟨t, ht, rfl⟩ := List.mem_map.mp hx
          exact hall' t ht

/-- Witness for claim C1 at concrete inputs: for the query "in" over the
registry, the init entry is a member with score 4 (both characters found
contiguously from the start of the search text), and the empty query yields
the empty ranking. -/
theorem claim_C1_witness :
    (tokenize [] = [] → rankCommands [] commands = []) ∧
    (ScoredCandidate.mk initCommand 4 ∈ rankCommands (str ['i','n']) commands ↔
      tokenize (str ['i','n']) ≠ [] ∧ initCommand ∈ commands ∧
      (∀ t ∈ tokenize (str ['i','n']),
        fuzzyScore t (buildSearchText initCommand) ≠ NO_MATCH) ∧
      (4 : Int) = ((tokenize (str ['i','n'])).map fun t =>
        fuzzyScore t (buildSearchText initCommand)).sum) :=
  ⟨(claim_C1_rank_membership [] commands initCommand 4).1,
    (claim_C1_rank_membership (str ['i','n']) commands initCommand 4).2⟩

theorem lexLt_trichotomy : ∀ x y : Str, lexLt x y = true ∨ lexLt y x = true ∨ x = y := by
  intro x
  induction x with
  | nil =>
    intro y
    cases y with
    | nil => right; right; rfl
    | cons b bs => left; rfl
  | cons a as ih =>
    intro y
    cases y with
    | nil => right; left; rfl
    | cons b bs =>
      rcases Nat.lt_trichotomy a b with hab | hab | hab
      · left; simp [lexLt, hab]
      · subst hab
        rcases ih bs with h | h | h
        · left; simp [lexLt, Nat.lt_irrefl, h]
        · right; left; simp [lexLt, Nat.lt_irrefl, h]
        · right; right; rw [h]
      · right; left; simp [lexLt, hab]

theorem lexLt_trans :
    ∀ x y z : Str, lexLt x y = true → lexLt y z = true → lexLt x z = true := by
  intro x
  induction x with
  | nil =>
    intro y z hxy hyz
    cases y with
    | nil => simp [lexLt] at hxy
    | cons b bs =>
      cases z with
      | nil => simp [lexLt] at hyz
      | cons c cs => rfl
  | cons a as ih =>
    intro y z hxy hyz
    cases y with
    | nil => simp [lexLt] at hxy
    | cons b bs =>
      cases z with
      | nil => simp [lexLt] at hyz
      | cons c cs =>
        simp only [lexLt] at hxy hyz ⊢
        by_cases hab : a < b
        · by_cases hbc : b < c
          · simp [show a < c by omega]
          · by_cases hcb : c < b
            · simp [hbc, hcb] at hyz
            · have hbc' : b = c := by omega
              subst hbc'
              simp [hab]
        · by_cases hba : b < a
          · simp [hab, hba] at hxy
          · have hab' : a = b := by omega
            subst hab'
            by_cases hac : a < c
            · simp [hac]
            · by_cases hca : c < a
              · simp [hac, hca] at hyz
              · have hac' : a = c := by omega
                subst hac'
                simp only [Nat.lt_irrefl, if_false] at hxy hyz ⊢
                exact ih bs cs hxy hyz

theorem lexLe_total : ∀ x y : Str, lexLe x y = true ∨ lexLe y x = true := by
  intro x y
  rcases lexLt_trichotomy x y with h | h | h
  · left; simp [lexLe, h]
  · right; simp [lexLe, h]
  · left; simp [lexLe, h]

theorem lexLe_trans :
    ∀ x y z : Str, lexLe x y = true → lexLe y z = true → lexLe x z = true := by
  intro x y z hxy hyz
  simp only [lexLe, Bool.or_eq_true, decide_eq_true_eq] at hxy hyz ⊢
  rcases hxy with hxy | rfl
  · rcases hyz with hyz | rfl
    · exact Or.inl (lexLt_trans x y z hxy hyz)
    · exact Or.inl hxy
  · exact hyz

theorem lexLt_of_lexLe_of_ne (x y : Str) (hle : lexLe x y = true) (hne : x ≠ y) :
    lexLt x y = true := by
  simp only [lexLe, Bool.or_eq_true, decide_eq_true_eq] at hle
  rcases hle with h | rfl
  · exact h
  · exact absurd rfl hne

theorem candLe_total : ∀ a b : ScoredCandidate, candLe a b = true ∨ candLe b a = true := by
  intro a b
  by_cases hs : a.score = b.score
  · simp only [candLe, if_pos hs, if_pos hs.symm]
    exact lexLe_total _ _
  · simp only [candLe, if_neg hs, if_neg (Ne.symm hs), decide_eq_true_eq]
    omega

theorem candLe_trans :
    ∀ a b c : ScoredCandidate, candLe a b = true → candLe b c = true → candLe a c = true := by
  intro a b c hab hbc
  by_cases h1 : a.score = b.score <;> by_cases h2 : b.score = c.score
  · have h3 : a.score = c.score := h1.trans h2
    simp only [candLe, if_pos h1] at hab
    simp only [candLe, if_pos h2] at hbc
    simp only [candLe, if_pos h3]
    exact lexLe_trans _ _ _ hab hbc
  · simp only [candLe, if_neg h2, decide_eq_true_eq] at hbc
    have h3 : ¬ a.score = c.score := by omega
    simp only [candLe, if_neg h3, decide_eq_true_eq]
    omega
  · simp only [candLe, if_neg h1, decide_eq_true_eq] at hab
    have h3 : ¬ a.score = c.score := by omega
    simp only [candLe, if_neg h3, decide_eq_true_eq]
    omega
  · simp only [candLe, if_neg h1, decide_eq_true_eq] at hab
    simp only [candLe, if_neg h2, decide_eq_true_eq] at hbc
    have h3 : ¬ a.score = c.score := by omega
    simp only [candLe, if_neg h3, decide_eq_true_eq]
    omega

/-- Helper: combine two Pairwise facts over one list. -/
theorem pairwise_and_of_pairwise {α : Type} {R S : α → α → Prop} :
    ∀ {l : List α}, l.Pairwise R → l.Pairwise S →
      l.Pairwise fun a b => R a b ∧ S a b :=
  fun hR hS => hR.and hS

/-- Claim C2: over descriptors with pairwise distinct case-insensitive
names, the ranking is strictly sorted: every entry that comes later has a
strictly lower score, or an equal score and a strictly greater
case-insensitive name; and ranking is a deterministic function of its
inputs (two calls on identical inputs give the identical sequence). -/
theorem claim_C2_rank_sorted (query : Str) (ds : List CommandDefinition)
    (hdist : (ds.map fun d => d.name.map jsToLower).Pairwise (· ≠ ·)) :
    (rankCommands query ds).Pairwise (fun a b =>
      b.score < a.score ∨
        (a.score = b.score ∧
          lexLt (a.command.name.map jsToLower) (b.command.name.map jsToLower) = true)) ∧
    rankCommands query ds = rankCommands query ds := by
  refine ⟨?_, rfl⟩
  by_cases htok : tokenize query = []
  · simp [rankCommands, htok]
  · simp only [rankCommands, if_neg htok]
    set entries := ds.map fun command =>
      ScoredCandidate.mk command
        (sumTokenScores (buildSearchText command) (tokenize query) 0) with hentries
    set filtered := entries.filter fun entry => decide (0 ≤ entry.score) with hfiltered
    haveI instTot : IsTotal ScoredCandidate fun a b => candLe a b = true := ⟨candLe_total⟩
    haveI instTrans : IsTrans ScoredCandidate fun a b => candLe a b = true := ⟨candLe_trans⟩
    have hsorted : (filtered.insertionSort fun a b => candLe a b = true).Pairwise
        fun a b => candLe a b = true :=
      List.sorted_insertionSort _ filtered
    have hnames0 : ds.Pairwise fun d e => d.name.map jsToLower ≠ e.name.map jsToLower :=
      List.pairwise_map.mp hdist
    have hnames1 : entries.Pairwise fun a b =>
        a.command.name.map jsToLower ≠ b.command.name.map jsToLower := by
      rw [hentries, List.pairwise_map]
      exact hnames0
    have hnames2 : filtered.Pairwise fun a b =>
        a.command.name.map jsToLower ≠ b.command.name.map jsToLower :=
      List.Pairwise.sublist (List.filter_sublist entries) hnames1
    have hsymm : ∀ {a b : ScoredCandidate},
        a.command.name.map jsToLower ≠ b.command.name.map jsToLower →
        b.command.name.map jsToLower ≠ a.command.name.map jsToLower :=
      fun h => h.symm
    have hnames3 : (filtered.insertionSort fun a b => candLe a b = true).Pairwise
        fun a b => a.command.name.map jsToLower ≠ b.command.name.map jsToLower :=
      ((List.perm_insertionSort _ filtered).pairwise_iff hsymm).mpr hnames2
    refine (hsorted.and hnames3).imp ?_
    rintro a b ⟨hle, hne⟩
    by_cases hs : a.score = b.score
    · right
      refine ⟨hs, ?_⟩
      simp only [candLe, if_pos hs] at hle
      exact lexLt_of_lexLe_of_ne _ _ hle hne
    · left
      simp only [candLe, if_neg hs, decide_eq_true_eq] at hle
      exact hle

/-- Witness for claim C2: the registry of the spec Scenario A (init and
install, distinct names); the query "in" ties both at score 4 and the
tie-break puts init first. -/
theorem claim_C2_witness :
    ((rankCommands (str ['i','n'])
      [⟨str ['i','n','i','t'], str ['d','e','s','c'], none, none⟩,
        ⟨str ['i','n','s','t','a','l','l'], str ['d','e','p','s'], none, none⟩]).Pairwise
      (fun a b =>
        b.score < a.score ∨
          (a.score = b.score ∧
            lexLt (a.command.name.map jsToLower) (b.command.name.map jsToLower) = true))) ∧
    rankCommands (str ['i','n'])
      [⟨str ['i','n','i','t'], str ['d','e','s','c'], none, none⟩,
        ⟨str ['i','n','s','t','a','l','l'], str ['d','e','p','s'], none, none⟩] =
    rankCommands (str ['i','n'])
      [⟨str ['i','n','i','t'], str ['d','e','s','c'], none, none⟩,
        ⟨str ['i','n','s','t','a','l','l'], str ['d','e','p','s'], none, none⟩] :=
  claim_C2_rank_sorted (str ['i','n'])
    [⟨str ['i','n','i','t'], str ['d','e','s','c'], none, none⟩,
      ⟨str ['i','n','s','t','a','l','l'], str ['d','e','p','s'], none, none⟩]
    (by decide)

/-! ### Lemmas about the Registry lookup -/

/-- Case-insensitive match of an input against one descriptor: the input
equals the name, or some alias, up to ASCII case. -/
def ciMatches (input : Str) (command : CommandDefinition) : Prop :=
  input.map jsToLower = command.name.map jsToLower ∨
    ∃ as, command.aliases = some as ∧
      ∃ al ∈ as, input.map jsToLower = al.map jsToLower

/-- A registry whose stored names and aliases are already lowercase, as is
the case for the commands array of src/main.ts. -/
def lowercaseRegistry (cmds : List CommandDefinition) : Prop :=
  ∀ c ∈ cmds, c.name.map jsToLower = c.name ∧
    ∀ al ∈ c.aliases.getD [], al.map jsToLower = al

theorem matchesNormalized_iff_ciMatches (input : Str) (c : CommandDefinition)
    (hname : c.name.map jsToLower = c.name)
    (halias : ∀ al ∈ c.aliases.getD [], al.map jsToLower = al) :
    matchesNormalized (input.map jsToLower) c = true ↔ ciMatches input c := by
  unfold matchesNormalized ciMatches
  by_cases hn : c.name = input.map jsToLower
  · simp only [if_pos hn, true_iff]
    left
    rw [← hn, hname]
  · rw [if_neg hn]
    cases hal : c.aliases with
    | none =>
      simp only [hal]
      constructor
      · intro h; exact absurd h (by simp)
      · rintro (h | ⟨as, has, -⟩)
        · exact absurd (h.trans hname).symm hn
        · exact absurd has (by simp)
    | some as =>
      simp only [hal, List.any_eq_true, decide_eq_true_eq]
      constructor
      · rintro ⟨al, hmem, heq⟩
        subst heq
        right
        refine ⟨as, rfl, input.map jsToLower, hmem, ?_⟩
        exact (halias (input.map jsToLower) (by simp [hal, hmem])).symm
      · rintro (h | ⟨as2, has2, al, hmem, heq⟩)
        · exact absurd (h.trans hname).symm hn
        · obtain rfl : as2 = as := (Option.some.injEq _ _).mp has2.symm
          refine ⟨al, hmem, ?_⟩
          exact (heq.trans (halias al (by simp [hal, hmem]))).symm

/-- Claim C6: over a registry whose stored names and aliases are lowercase
(true of the commands registry of this program), findCommand on any input
matching some entry case-insensitively (in particular, any case variant of a
registered name or alias) returns the first registry entry, in registration
order, that matches case-insensitively; on an input matching no entry it
returns none (and, being a total function into Option, it never raises). -/
theorem claim_C6_findCommand (cmds : List CommandDefinition) (input : Str)
    (hlc : lowercaseRegistry cmds) :
    (∀ d ∈ cmds, ciMatches input d →
      ∃ e pre post, findCommand input cmds = some e ∧ cmds = pre ++ e :: post ∧
        ciMatches input e ∧ ∀ e' ∈ pre, ¬ ciMatches input e') ∧
    ((∀ d ∈ cmds, ¬ ciMatches input d) → findCommand input cmds = none) := by
  have hbridge : ∀ c ∈ cmds,
      (matchesNormalized (input.map jsToLower) c = true ↔ ciMatches input c) :=
    fun c hc => matchesNormalized_iff_ciMatches input c (hlc c hc).1 (hlc c hc).2
  constructor
  · intro d hd hmatch
    cases hfind : findCommand input cmds with
    | none =>
      have hnone : ∀ x ∈ cmds, ¬ matchesNormalized (input.map jsToLower) x = true :=
        List.find?_eq_none.mp hfind
      exact absurd ((hbridge d hd).mpr hmatch) (hnone d hd)
    | some e =>
      obtain ⟨hpe, pre, post, hsplit, hfirst⟩ := List.find?_eq_some.mp hfind
      have he : e ∈ cmds := by rw [hsplit]; exact List.mem_append_right _ (List.mem_cons_self _ _)
      refine ⟨e, pre, post, rfl, hsplit, (hbridge e he).mp hpe, ?_⟩
      intro e' he' hciq
      have he'cmds : e' ∈ cmds := by
        rw [hsplit]; exact List.mem_append_left _ he'
      have : (!matchesNormalized (input.map jsToLower) e') = true := hfirst e' he'
      rw [Bool.not_eq_true'] at this
      exact absurd ((hbridge e' he'cmds).mpr hciq) (by rw [this]; simp)
  · intro hnone
    apply List.find?_eq_none.mpr
    intro x hx
    rw [hbridge x hx]
    exact hnone x hx

/-- Witness for claim C6: the uppercase variant INIT of the registered name
resolves, and both conjuncts are exercised over the real registry. -/
theorem claim_C6_witness :
    (∀ d ∈ commands, ciMatches (str ['I','N','I','T']) d →
      ∃ e pre post, findCommand (str ['I','N','I','T']) commands = some e ∧
        commands = pre ++ e :: post ∧ ciMatches (str ['I','N','I','T']) e ∧
        ∀ e' ∈ pre, ¬ ciMatches (str ['I','N','I','T']) e') ∧
    ((∀ d ∈ commands, ¬ ciMatches (str ['I','N','I','T']) d) →
      findCommand (str ['I','N','I','T']) commands = none) :=
  claim_C6_findCommand commands (str ['I','N','I','T'])
    (by unfold lowercaseRegistry; decide)

/-! ### Lemmas about the Interactive Selector -/

/-- Invariant of the selection machine: any presented candidate list holds
at most 5 entries. -/
def selOk : PromptState → Prop
  | .awaitingSelection suggestions => suggestions.length ≤ 5
  | _ => True

theorem take_min_self {α : Type} (n : Nat) (l : List α) :
    l.take (min n l.length) = l.take n := by
  rcases Nat.le_total l.length n with h | h
  · rw [Nat.min_eq_right h, List.take_length, List.take_of_length_le h]
  · rw [Nat.min_eq_left h]

theorem parseIntDec_nil : parseIntDec [] = none := rfl

theorem selOk_step (defs : List CommandDefinition) (line : Str) :
    ∀ st : PromptState, selOk st → selOk (step defs st line).1 := by
  intro st
  cases st with
  | awaitingQuery =>
    intro _
    simp only [step]
    by_cases ht : jsTrim line = []
    · simp [ht, selOk]
    · simp only [if_neg ht]
      by_cases hr : rankCommands (jsTrim line) defs = []
      · simp [hr, selOk]
      · simp only [if_neg hr]
        by_cases hl : (rankCommands (jsTrim line) defs).length = 1
        · simp only [if_pos hl]
          cases hrc : rankCommands (jsTrim line) defs with
          | nil => simp [selOk]
          | cons e rest => simp [selOk]
        · simp only [if_neg hl, selOk]
          rw [List.length_take]
          omega
  | awaitingSelection sugg0 =>
    intro hok
    simp only [step]
    by_cases hs : jsTrim line = []
    · simp [hs, selOk]
    · simp only [if_neg hs]
      cases hp : parseIntDec (jsTrim line) with
      | none => simp [selOk]
      | some n =>
        by_cases hin : 1 ≤ n ∧ n ≤ (sugg0.length : Int)
        · simp only [if_pos hin]
          cases hget : sugg0[(n - 1).toNat]? with
          | some entry => simp [selOk]
          | none => simp [selOk]
        · simp [hin, selOk]
  | done c => intro _; simp [step, selOk]
  | cancelled => intro _; simp [step, selOk]

/-- Counterexample for claim C7 as stated: in the selection state, the
non-empty input "x" (which parses to no integer) emits the invalid-selection
feedback but does not keep the machine in awaitingSelection: the source
falls back to the top of its while loop and the next line is read at the
search prompt, so the machine is back in awaitingQuery. -/
theorem claim_C7_counterexample :
    step commands (.awaitingSelection [ScoredCandidate.mk initCommand 4])
        (str ['x']) = (.awaitingQuery, [.invalidMsg]) ∧
    step commands (.awaitingSelection [ScoredCandidate.mk initCommand 4])
        (str ['x']) ≠
      (.awaitingSelection [ScoredCandidate.mk initCommand 4], [.invalidMsg]) := by
  constructor
  · decide
  · decide

/-- Claim C7, amended: in the selection stage the presented list always has
at most 5 entries and is the top of the ranking (the invariant selOk holds
initially and is preserved by every turn, and the only way to enter the
selection state presents the first five ranked entries); an input parsing as
an integer within the presented range reaches the terminal done state
holding the corresponding presented descriptor; any other non-empty input
emits the invalid-selection feedback and returns the machine to the
awaitingQuery state (the next line is read at the search prompt), rather
than staying in awaitingSelection as the original claim said. -/
theorem claim_C7_selection_stage (defs : List CommandDefinition)
    (sugg : List ScoredCandidate) (line : Str) :
    (∀ st : PromptState, selOk st → selOk (step defs st line).1) ∧
    ((step defs .awaitingQuery line).1 = .awaitingSelection sugg →
      sugg = (rankCommands (jsTrim line) defs).take 5 ∧ sugg.length ≤ 5) ∧
    (∀ n : Int, parseIntDec (jsTrim line) = some n → 1 ≤ n →
      n ≤ (sugg.length : Int) →
      ∃ entry, sugg[(n - 1).toNat]? = some entry ∧
        step defs (.awaitingSelection sugg) line = (.done entry.command, [])) ∧
    (jsTrim line ≠ [] →
      (∀ n : Int, parseIntDec (jsTrim line) = some n →
        ¬ (1 ≤ n ∧ n ≤ (sugg.length : Int))) →
      step defs (.awaitingSelection sugg) line =
        (.awaitingQuery, [.invalidMsg])) := by
  refine ⟨selOk_step defs line, ?_, ?_, ?_⟩
  · simp only [step]
    by_cases ht : jsTrim line = []
    · simp [ht]
    · simp only [if_neg ht]
      by_cases hr : rankCommands (jsTrim line) defs = []
      · simp [hr]
      · simp only [if_neg hr]
        by_cases hl : (rankCommands (jsTrim line) defs).length = 1
        · simp only [if_pos hl]
          cases hrc : rankCommands (jsTrim line) defs with
          | nil => simp
          | cons e rest => simp
        · simp only [if_neg hl]
          intro h
          obtain rfl : (rankCommands (jsTrim line) defs).take
              (min 5 (rankCommands (jsTrim line) defs).length) = sugg := by
            cases h
            rfl
          constructor
          · rw [take_min_self]
          · rw [List.length_take]
            omega
  · intro n hn h1 h2
    have hne : jsTrim line ≠ [] := by
      intro h0
      rw [h0, parseIntDec_nil] at hn
      cases hn
    have hlt : (n - 1).toNat < sugg.length := by omega
    refine ⟨sugg[(n - 1).toNat], List.getElem?_eq_getElem hlt, ?_⟩
    simp only [step, if_neg hne, hn, if_pos (And.intro h1 h2),
      List.getElem?_eq_getElem hlt]
  · intro hne hno
    simp only [step, if_neg hne]
    cases hp : parseIntDec (jsTrim line) with
    | none => rfl
    | some n => simp [hno n hp]

/-- Witness for claim C7 at concrete inputs: the one-entry presented list
holding the init candidate, with the input line "1". -/
theorem claim_C7_witness :
    (∀ st : PromptState, selOk st →
      selOk (step commands st (str ['1'])).1) ∧
    ((step commands .awaitingQuery (str ['1'])).1 =
        .awaitingSelection [ScoredCandidate.mk initCommand 4] →
      [ScoredCandidate.mk initCommand 4] =
          (rankCommands (jsTrim (str ['1'])) commands).take 5 ∧
        ([ScoredCandidate.mk initCommand 4] : List ScoredCandidate).length ≤ 5) ∧
    (∀ n : Int, parseIntDec (jsTrim (str ['1'])) = some n → 1 ≤ n →
      n ≤ (([ScoredCandidate.mk initCommand 4] : List ScoredCandidate).length : Int) →
      ∃ entry, ([ScoredCandidate.mk initCommand 4] : List ScoredCandidate)[(n - 1).toNat]? =
          some entry ∧
        step commands (.awaitingSelection [ScoredCandidate.mk initCommand 4]) (str ['1']) =
          (.done entry.command, [])) ∧
    (jsTrim (str ['1']) ≠ [] →
      (∀ n : Int, parseIntDec (jsTrim (str ['1'])) = some n →
        ¬ (1 ≤ n ∧ n ≤ (([ScoredCandidate.mk initCommand 4] : List ScoredCandidate).length : Int))) →
      step commands (.awaitingSelection [ScoredCandidate.mk initCommand 4]) (str ['1']) =
        (.awaitingQuery, [.invalidMsg])) :=
  claim_C7_selection_stage commands [ScoredCandidate.mk initCommand 4] (str ['1'])

/-- Claim C8: an all-whitespace input line at the query prompt cancels: the
step from awaitingQuery is the terminal cancelled state, and a whole session
run consumes that single line and ends with no selection and no further
output, whatever input would have followed. -/
theorem claim_C8_empty_query_cancels (defs : List CommandDefinition)
    (line : Str) (rest : List Str) (h : jsTrim line = []) :
    step defs .awaitingQuery line = (.cancelled, []) ∧
    runPromptLoop defs .awaitingQuery (line :: rest) = (none, [], 1) := by
  have hstep : step defs .awaitingQuery line = (.cancelled, []) := by
    simp [step, h]
  refine ⟨hstep, ?_⟩
  simp [runPromptLoop, hstep]

/-- Witness for claim C8: a line of two blanks followed by a pending line
"x" that is never read. -/
theorem claim_C8_witness :
    step commands .awaitingQuery (str [' ',' ']) = (.cancelled, []) ∧
    runPromptLoop commands .awaitingQuery (str [' ',' '] :: [str ['x']]) =
      (none, [], 1) :=
  claim_C8_empty_query_cancels commands (str [' ',' ']) [str ['x']] (by decide)

/-- Claim C10: with an empty registry the selector returns no selection at
once: for every input script it reads no line and emits no output (in
particular not the registry listing), which models returning before the
input channel is even acquired. -/
theorem claim_C10_empty_registry (inputs : List Str) :
    promptForCommand [] inputs = (none, [], 0) := by
  simp [promptForCommand]

/-- Witness for claim C10 at a concrete non-empty input script. -/
theorem claim_C10_witness :
    promptForCommand [] [str ['x']] = (none, [], 0) :=
  claim_C10_empty_registry [str ['x']]

/-! ### Lemmas about the Dispatcher -/

/-- Claim C9: a failure of a command run behaviour is caught exactly once at
the dispatcher boundary: on the direct dispatch path the result is exit code
1 with the error message as the single error line, and the same holds on the
interactive path when the selector chose a command; mainRun being a total
function, the model never ends in an unhandled fault. -/
theorem claim_C9_run_error_caught
    (runBehavior : CommandDefinition → List Str → Except Str Unit)
    (name : Str) (cmdArgs : List Str) (ttyIn ttyOut : Bool)
    (inputs : List Str) (c : CommandDefinition) (msg : Str)
    (h1 : findCommand name commands = some c)
    (h2 : name ≠ helpWord)
    (h3 : ¬ (cmdArgs = [] ∧ (name = versionFlagLong ∨ name = versionFlagShort ∨
      name = helpFlagLong ∨ name = helpFlagShort)))
    (h4 : ∀ v ∈ cmdArgs, v ≠ helpFlagLong ∧ v ≠ helpFlagShort)
    (h5 : runBehavior c cmdArgs = .error msg) :
    mainRun (name :: cmdArgs) ttyIn ttyOut inputs runBehavior =
      MainResult.mk 1 [msg] ∧
    (∀ (inputs2 : List Str) (sel : CommandDefinition) (msg2 : Str),
      (promptForCommand commands inputs2).1 = some sel →
      runBehavior sel [] = .error msg2 →
      mainRun [] true true inputs2 runBehavior = MainResult.mk 1 [msg2]) := by
  constructor
  · have hv : ¬ (cmdArgs = [] ∧ (name = versionFlagLong ∨ name = versionFlagShort)) := by
      rintro ⟨ha, hb⟩
      exact h3 ⟨ha, by tauto⟩
    have hh : ¬ (cmdArgs = [] ∧ (name = helpFlagLong ∨ name = helpFlagShort)) := by
      rintro ⟨ha, hb⟩
      exact h3 ⟨ha, by tauto⟩
    have hany : (cmdArgs.any fun v =>
        decide (v = helpFlagLong) || decide (v = helpFlagShort)) = false := by
      rw [List.any_eq_false]
      intro v hv'
      simp only [Bool.or_eq_true, decide_eq_true_eq, not_or]
      exact (h4 v hv')
    simp only [mainRun, if_neg hv, if_neg hh, if_neg h2, h1, hany,
      Bool.false_eq_true, if_false, h5]
  · intro inputs2 sel msg2 hprompt hrun
    simp only [mainRun, Bool.not_true, Bool.or_self, Bool.false_eq_true,
      if_false, hprompt, hrun]

/-- Witness for claim C9: a run behaviour that always fails with the message
"boom", dispatched directly as the init command with no arguments. -/
theorem claim_C9_witness :
    mainRun [str ['i','n','i','t']] false false []
        (fun _ _ => .error (str ['b','o','o','m'])) =
      MainResult.mk 1 [str ['b','o','o','m']] ∧
    (∀ (inputs2 : List Str) (sel : CommandDefinition) (msg2 : Str),
      (promptForCommand commands inputs2).1 = some sel →
      (Except.error (str ['b','o','o','m']) : Except Str Unit) = .error msg2 →
      mainRun [] true true inputs2
          (fun _ _ => .error (str ['b','o','o','m'])) = MainResult.mk 1 [msg2]) :=
  claim_C9_run_error_caught (fun _ _ => .error (str ['b','o','o','m']))
    (str ['i','n','i','t']) [] false false [] initCommand (str ['b','o','o','m'])
    (by decide) (by decide) (by decide) (by decide) rfl
